import Mathlib

/-!
Verification of the immutable structural-update core of a small functional
utility library (`pick`, `omit`, `set`, `merge` from `src/index.ts`).

JavaScript plain-data values are modelled by the inductive type `JSVal`:
Records (plain objects) are association lists of string keys (a real JS
object has unique keys; the well-formedness predicate `wfV` captures this),
Sequences (arrays) are lists of elements together with an association list
of non-index string properties (a JS array can carry such properties),
and the remaining constructors are the primitive values plus an opaque
function value.  Arrays are modelled dense: a hole behaves as `undefined`.
The special `length` property of arrays is not part of the plain-data model.

The definitions below are direct translations of the source functions.
-/

namespace Functional

inductive JSVal where
  | null
  | undefined
  | bool (b : Bool)
  | num (n : Int)
  | str (s : String)
  | fn (id : Nat)
  | obj (fields : List (String × JSVal))
  | arr (elems : List JSVal) (props : List (String × JSVal))

/-- First binding of key `k` in an association list (JS property lookup). -/
def lookupField : List (String × JSVal) → String → Option JSVal
  | [], _ => none
  | (k', v) :: rest, k => if k' = k then some v else lookupField rest k

/-- JS property assignment on an object represented as an association list:
an existing key keeps its position, a new key is appended (insertion order). -/
def setField : List (String × JSVal) → String → JSVal → List (String × JSVal)
  | [], k, v => [(k, v)]
  | (k', v') :: rest, k, v =>
      if k' = k then (k, v) :: rest else (k', v') :: setField rest k v

/-- JS `delete object[key]` (a real object has at most one binding of the
key; on an ill-formed association list this removes every binding). -/
def deleteField : List (String × JSVal) → String → List (String × JSVal)
  | [], _ => []
  | (k', v) :: rest, k =>
      if k' = k then deleteField rest k else (k', v) :: deleteField rest k

/-- A string is a canonical array index iff it is the decimal numeral of some
`n < 2^32 - 1` with no leading zeros (ECMAScript array-index criterion:
`ToString(ToUint32(P)) = P`). -/
def strToIndex (s : String) : Option Nat :=
  match s.toList with
  | [] => none
  | c :: cs =>
      if (c :: cs).all Char.isDigit ∧ (c = '0' → cs = []) then
        let n := (c :: cs).foldl (fun n d => n * 10 + (d.toNat - 48)) 0
        if n < 4294967295 then some n else none
      else none

/-- JS indexed assignment `a[i] = v` on a dense array: in-range replaces,
out-of-range extends, filling the gap with `undefined`. -/
def setElem (es : List JSVal) (i : Nat) (v : JSVal) : List JSVal :=
  if i < es.length then es.set i v
  else es ++ List.replicate (i - es.length) JSVal.undefined ++ [v]

/-- JS truthiness. -/
def truthy : JSVal → Bool
  | .null => false
  | .undefined => false
  | .bool b => b
  | .num n => n ≠ 0
  | .str s => s ≠ ""
  | .fn _ => true
  | .obj _ => true
  | .arr _ _ => true

/-- `typeof current === 'object' && current !== null` — the containership
check of `set` (objects and arrays pass; functions have typeof 'function'). -/
def isContainer : JSVal → Bool
  | .obj _ => true
  | .arr _ _ => true
  | _ => false

/-- The JS `in` operator restricted to own keys of plain-data containers. -/
def hasKey : JSVal → String → Bool
  | .obj fs, k => (lookupField fs k).isSome
  | .arr es ps, k =>
      match strToIndex k with
      | some i => i < es.length
      | none => (lookupField ps k).isSome
  | _, _ => false

/-- JS property read `current[k]`; `undefined` when the key is absent.
In this library reads only occur on Records and Sequences. -/
def getKey : JSVal → String → JSVal
  | .obj fs, k => (lookupField fs k).getD .undefined
  | .arr es ps, k =>
      match strToIndex k with
      | some i => es.getD i .undefined
      | none => (lookupField ps k).getD .undefined
  | _, _ => .undefined

/-- JS indexed/keyed assignment `updated[k] = v` on a container. -/
def setKey : JSVal → String → JSVal → JSVal
  | .obj fs, k, v => .obj (setField fs k v)
  | .arr es ps, k, v =>
      match strToIndex k with
      | some i => .arr (setElem es i v) ps
      | none => .arr es (setField ps k v)
  | other, _, _ => other

/-- Own enumerable string-keyed properties, as produced by object spread
`{...x}` (and enumerated by `for key in x` plus the `hasOwnProperty` guard):
an object contributes its fields, an array its index-keyed elements followed
by its extra properties, a string its index-keyed characters, every other
value nothing. -/
def spreadFields : JSVal → List (String × JSVal)
  | .obj fs => fs
  | .arr es ps => (es.enum.map (fun p => (toString p.1, p.2))) ++ ps
  | .str s => s.toList.enum.map (fun p => (toString p.1, JSVal.str (String.mk [p.2])))
  | _ => []

/-- Keys of an association list are pairwise distinct (every real JS object
satisfies this; association lists make it a side condition). -/
def uniqKeys : List (String × JSVal) → Bool
  | [] => true
  | (k, _) :: rest => !(rest.any (fun p => p.1 = k)) && uniqKeys rest

mutual
/-- Well-formed plain-data value: all objects (and array property maps)
reachable inside have pairwise-distinct keys. -/
def wfV : JSVal → Bool
  | .obj fs => uniqKeys fs && wfFields fs
  | .arr es ps => wfElems es && (uniqKeys ps && wfFields ps)
  | _ => true
def wfFields : List (String × JSVal) → Bool
  | [] => true
  | (_, v) :: rest => wfV v && wfFields rest
def wfElems : List JSVal → Bool
  | [] => true
  | v :: rest => wfV v && wfElems rest
end

/-- Every key of `fs2` is present in `fs1`. -/
def keysIncl (fs2 fs1 : List (String × JSVal)) : Bool :=
  fs2.all (fun p => (lookupField fs1 p.1).isSome)

mutual
/-- Deep equality of plain-data values (the `deepEqual` notion of the spec):
leaves by value, arrays element-wise, objects as finite maps — same key set
and deeply equal values at every key, ignoring insertion order. -/
def equivV : JSVal → JSVal → Bool
  | .null, .null => true
  | .undefined, .undefined => true
  | .bool a, .bool b => a == b
  | .num a, .num b => a == b
  | .str a, .str b => a == b
  | .fn a, .fn b => a == b
  | .obj fs1, .obj fs2 => equivFields fs1 fs2 && keysIncl fs2 fs1
  | .arr es1 ps1, .arr es2 ps2 =>
      equivElems es1 es2 && (equivFields ps1 ps2 && keysIncl ps2 ps1)
  | _, _ => false
def equivFields : List (String × JSVal) → List (String × JSVal) → Bool
  | [], _ => true
  | (k, v) :: rest, fs2 =>
      (match lookupField fs2 k with
       | some v2 => equivV v v2
       | none => false) && equivFields rest fs2
def equivElems : List JSVal → List JSVal → Bool
  | [], [] => true
  | a :: as, b :: bs => equivV a b && equivElems as bs
  | _, _ => false
end

/-! ## The four source functions -/

/-- `pick(obj, keys)`: `for key of keys: if (key in obj) object[key] = obj[key]`. -/
def pick (obj : JSVal) (keys : List String) : JSVal :=
  JSVal.obj (keys.foldl
    (fun acc k => if hasKey obj k then setField acc k (getKey obj k) else acc)
    [])

/-- `omit(candidate, keys)`: `object = {...candidate}; for key of keys:
if (key in object) delete object[key]`. -/
def «omit» (candidate : JSVal) (keys : List String) : JSVal :=
  JSVal.obj (keys.foldl
    (fun acc k =>
      if (lookupField acc k).isSome then deleteField acc k else acc)
    (spreadFields candidate))

/-- JS `String.prototype.split` with the one-character separator `'.'`,
over the character list: the list of (possibly empty) chunks between dots.
The empty string yields the single chunk `[[]]`. -/
def splitDots : List Char → List (List Char)
  | [] => [[]]
  | c :: rest =>
      if c = '.' then [] :: splitDots rest
      else
        match splitDots rest with
        | seg :: segs => (c :: seg) :: segs
        | [] => [[c]]

/-- Path parsing of `set`: `path.split('.')`. -/
def splitPath (p : String) : List String :=
  (splitDots p.toList).map (fun cs => String.mk cs)

inductive SetError where
  | invalidPath
  | invalidIntermediate
deriving DecidableEq

/-- The spread copy `Array.isArray(current) ? [...current] : {...current}`
taken by `set` before assigning: an array spread copies the elements only
(extra properties are not carried by the iterator), an object spread copies
the fields. -/
def copyContainer : JSVal → JSVal
  | .arr es _ => .arr es []
  | .obj fs => .obj fs
  | other => other

/-- The inner `recursor` of `set`: empty key list returns `value`; otherwise
the current value must be a container, which is shallow-copied, and the
recursively updated child is assigned into the copy at the first key. -/
def setRec (current : JSVal) (keys : List String) (value : JSVal) :
    Except SetError JSVal :=
  match keys with
  | [] => .ok value
  | k :: rest =>
      if isContainer current then
        match setRec (getKey current k) rest value with
        | .ok newChild => .ok (setKey (copyContainer current) k newChild)
        | .error e => .error e
      else .error .invalidIntermediate

/-- `set(path, obj, value)`: throws on the empty path, otherwise runs the
recursor on the split path. -/
def set (path : String) (obj value : JSVal) : Except SetError JSVal :=
  if path = "" then .error .invalidPath
  else setRec obj (splitPath path) value

mutual
/-- Body of `merge`'s key loop: for each own enumerable key of `b` (in
order), if `b[key]` is a non-null non-array object then
`result[key] = merge(result[key] || {}, b[key])`, else `result[key] = b[key]`. -/
def mergeFields (result : List (String × JSVal)) :
    List (String × JSVal) → List (String × JSVal)
  | [] => result
  | (k, bv) :: rest =>
      mergeFields
        (setField result k (mergeStep ((lookupField result k).getD .undefined) bv))
        rest
/-- One assignment of the loop: `typeof bv === 'object' && bv !== null &&
!Array.isArray(bv)` selects the recursive branch `merge(av || {}, bv)`
(inlined), otherwise `bv` overrides. -/
def mergeStep (av : JSVal) : JSVal → JSVal
  | .obj bfs =>
      .obj (mergeFields
        (spreadFields (if truthy av then av else JSVal.obj [])) bfs)
  | bv => bv
end

/-- `merge(a, b)`: `result = {...a}`, then the key loop over `b`'s own
enumerable keys. -/
def merge (a b : JSVal) : JSVal :=
  JSVal.obj (mergeFields (spreadFields a) (spreadFields b))

/-- Iterated property read along a list of segments (the value reached by
a path prefix during `set`'s traversal). -/
def traverse (root : JSVal) : List String → JSVal
  | [] => root
  | k :: rest => traverse (getKey root k) rest

/-- The traversal of `set` hits a non-container while segments remain. -/
def reachesBad (current : JSVal) : List String → Bool
  | [] => false
  | k :: rest => !isContainer current || reachesBad (getKey current k) rest

/-!
## Heap model

The immutability contract ("`set` and `merge` never mutate their container
arguments") is about object identity and in-place assignment, so it is stated
over an explicit store: containers live in numbered cells, values are leaves
or references, and the two functions are re-played instruction by instruction,
each JS allocation appending a cell and each JS property assignment updating a
cell in place.  The theorems show every cell that existed before a call is
bit-for-bit unchanged after it, hence every deep snapshot of the inputs still
denotes the same tree.
-/

/-- A JS value in the heap model: a primitive leaf or a reference to a cell. -/
inductive HVal where
  | null
  | undefined
  | bool (b : Bool)
  | num (n : Int)
  | str (s : String)
  | fn (id : Nat)
  | ref (addr : Nat)
deriving DecidableEq

/-- A heap cell: a plain object or an array (with extra properties). -/
inductive Cell where
  | objC (fields : List (String × HVal))
  | arrC (elems : List HVal) (props : List (String × HVal))
deriving DecidableEq

abbrev Store := List Cell

/-- Heap analogue of `lookupField`. -/
def lookupFieldH : List (String × HVal) → String → Option HVal
  | [], _ => none
  | (k', v) :: rest, k => if k' = k then some v else lookupFieldH rest k

/-- Heap analogue of `setField`. -/
def setFieldH : List (String × HVal) → String → HVal → List (String × HVal)
  | [], k, v => [(k, v)]
  | (k', v') :: rest, k, v =>
      if k' = k then (k, v) :: rest else (k', v') :: setFieldH rest k v

/-- Heap analogue of `setElem`. -/
def setElemH (es : List HVal) (i : Nat) (v : HVal) : List HVal :=
  if i < es.length then es.set i v
  else es ++ List.replicate (i - es.length) HVal.undefined ++ [v]

/-- Property read `cell[k]`. -/
def cellGet (c : Cell) (k : String) : HVal :=
  match c with
  | .objC fs => (lookupFieldH fs k).getD .undefined
  | .arrC es ps =>
      match strToIndex k with
      | some i => es.getD i .undefined
      | none => (lookupFieldH ps k).getD .undefined

/-- In-place property assignment `cell[k] = v`. -/
def cellSet (c : Cell) (k : String) (v : HVal) : Cell :=
  match c with
  | .objC fs => .objC (setFieldH fs k v)
  | .arrC es ps =>
      match strToIndex k with
      | some i => .arrC (setElemH es i v) ps
      | none => .arrC es (setFieldH ps k v)

/-- The shallow copy `Array.isArray(current) ? [...current] : {...current}`
of a cell (array spread drops extra properties). -/
def cellCopy : Cell → Cell
  | .objC fs => .objC fs
  | .arrC es _ => .arrC es []

/-- JS truthiness of a heap value (references point at objects or arrays,
which are always truthy). -/
def truthyH : HVal → Bool
  | .null => false
  | .undefined => false
  | .bool b => b
  | .num n => n ≠ 0
  | .str s => s ≠ ""
  | .fn _ => true
  | .ref _ => true

/-- Own enumerable string-keyed properties of a heap value, as read by
spread/`for key in`. -/
def spreadH (σ : Store) : HVal → List (String × HVal)
  | .ref a =>
      match σ[a]? with
      | some (.objC fs) => fs
      | some (.arrC es ps) => (es.enum.map (fun p => (toString p.1, p.2))) ++ ps
      | none => []
  | .str s => s.toList.enum.map (fun p => (toString p.1, HVal.str (String.mk [p.2])))
  | _ => []

/-- `typeof bv === 'object' && bv !== null && !Array.isArray(bv)` in the heap
model: a reference to a plain-object cell. -/
def isObjRefH (σ : Store) : HVal → Bool
  | .ref a =>
      match σ[a]? with
      | some (.objC _) => true
      | _ => false
  | _ => false

/-- The inner `recursor` of `set`, re-played against the store.  Each level:
containership check on the current value, allocation of the shallow copy
(`σ ++ [cellCopy cell]`), recursive update of the child read from the
original cell, then the in-place assignment `updated[firstKey] = …` on the
fresh cell.  Dangling references cannot arise from well-formed inputs; they
conservatively take the error branch. -/
def setRecH (σ : Store) (current : HVal) (keys : List String) (value : HVal) :
    Store × Except SetError HVal :=
  match keys with
  | [] => (σ, .ok value)
  | k :: rest =>
      match current with
      | .ref a =>
          match σ[a]? with
          | some cell =>
              let newAddr := σ.length
              let σ1 := σ ++ [cellCopy cell]
              match setRecH σ1 (cellGet cell k) rest value with
              | (σ2, .ok newChild) =>
                  match σ2[newAddr]? with
                  | some c => (σ2.set newAddr (cellSet c k newChild), .ok (.ref newAddr))
                  | none => (σ2, .error .invalidIntermediate)
              | (σ2, .error e) => (σ2, .error e)
          | none => (σ, .error .invalidIntermediate)
      | _ => (σ, .error .invalidIntermediate)

/-- `set` in the heap model: the store is returned in the error cases too,
so the no-mutation statement also covers calls that throw. -/
def setH (σ : Store) (path : String) (obj value : HVal) :
    Store × Except SetError HVal :=
  if path = "" then (σ, .error .invalidPath)
  else setRecH σ obj (splitPath path) value

/-- Read `result[k]` on the (always plain-object) result cell of `merge`. -/
def objGetH (σ : Store) (a : Nat) (k : String) : HVal :=
  match σ[a]? with
  | some (.objC fs) => (lookupFieldH fs k).getD .undefined
  | _ => .undefined

/-- In-place `result[k] = v` on the result cell of `merge`. -/
def objSetH (σ : Store) (a : Nat) (k : String) (v : HVal) : Store :=
  match σ[a]? with
  | some (.objC fs) => σ.set a (.objC (setFieldH fs k v))
  | _ => σ

mutual
/-- `merge(a, b)` re-played against the store: allocate `result = {...a}`,
then run the key loop over `b`'s own enumerable properties.  The recursion
depth is bounded by a fuel parameter (`none` means the fuel ran out; the
no-mutation theorem holds for every fuel). -/
def mergeHF : Nat → Store → HVal → HVal → Store × Option HVal
  | 0, σ, _, _ => (σ, none)
  | fuel + 1, σ, a, b =>
      let resAddr := σ.length
      mergeLoopHF fuel (σ ++ [Cell.objC (spreadH σ a)]) resAddr (spreadH σ b)
  termination_by fuel _ _ _ => (fuel, 0)
/-- The key loop: for each key, if `b[key]` is a non-null non-array object
then `result[key] = merge(result[key] || {}, b[key])` (where `{}` allocates
a fresh empty object when `result[key]` is falsy), else
`result[key] = b[key]`. -/
def mergeLoopHF : Nat → Store → Nat → List (String × HVal) → Store × Option HVal
  | _, σ, resAddr, [] => (σ, some (.ref resAddr))
  | fuel, σ, resAddr, (k, bv) :: rest =>
      if isObjRefH σ bv then
        let av := objGetH σ resAddr k
        let p := if truthyH av then (σ, av) else (σ ++ [Cell.objC []], HVal.ref σ.length)
        match mergeHF fuel p.1 p.2 bv with
        | (σm, some mv) => mergeLoopHF fuel (objSetH σm resAddr k mv) resAddr rest
        | (σm, none) => (σm, none)
      else mergeLoopHF fuel (objSetH σ resAddr k bv) resAddr rest
  termination_by fuel _ _ l => (fuel, l.length + 1)
end

/-- Heap value whose reference (if any) points below address `n`. -/
def valBelow (n : Nat) : HVal → Bool
  | .ref a => a < n
  | _ => true

/-- Every value stored in the cell points below address `n`. -/
def cellBelow (n : Nat) : Cell → Bool
  | .objC fs => fs.all (fun p => valBelow n p.2)
  | .arrC es ps => es.all (valBelow n) && ps.all (fun p => valBelow n p.2)

/-- A closed store: no cell contains a dangling reference. -/
def storeOk (σ : Store) : Bool :=
  σ.all (cellBelow σ.length)

/-- Fuel-bounded denotation of a heap value as a plain-data tree — the
"deep-equality snapshot" taken of an input. -/
def denote : Nat → Store → HVal → JSVal
  | _, _, .null => .null
  | _, _, .undefined => .undefined
  | _, _, .bool b => .bool b
  | _, _, .num n => .num n
  | _, _, .str s => .str s
  | _, _, .fn id => .fn id
  | 0, _, .ref _ => .undefined
  | n + 1, σ, .ref a =>
      match σ[a]? with
      | some (.objC fs) => .obj (fs.map (fun p => (p.1, denote n σ p.2)))
      | some (.arrC es ps) =>
          .arr (es.map (denote n σ)) (ps.map (fun p => (p.1, denote n σ p.2)))
      | none => .undefined

/-- Store evolution that cannot be observed through old references: the store
only grew, and every cell at an address below `n` is unchanged. -/
def ExtBelow (n : Nat) (σ σ' : Store) : Prop :=
  σ.length ≤ σ'.length ∧ ∀ i, i < n → σ'[i]? = σ[i]?

/-! ## Association-list lemmas -/

theorem lookupField_setField_self (fs : List (String × JSVal)) (k : String)
    (v : JSVal) : lookupField (setField fs k v) k = some v := by
  induction fs with
  | nil => simp [setField, lookupField]
  | cons p rest ih =>
      obtain ⟨k', v'⟩ := p
      by_cases h : k' = k
      · simp [setField, h, lookupField]
      · simp [setField, h, lookupField, ih]

theorem lookupField_setField_ne (fs : List (String × JSVal)) (k k' : String)
    (v : JSVal) (h : k' ≠ k) :
    lookupField (setField fs k v) k' = lookupField fs k' := by
  have h' : k ≠ k' := Ne.symm h
  induction fs with
  | nil => simp [setField, lookupField, h']
  | cons p rest ih =>
      obtain ⟨k1, v1⟩ := p
      by_cases h1 : k1 = k
      · subst h1
        simp [setField, lookupField, h']
      · simp [setField, h1, lookupField, ih]

theorem lookupField_eq_none_iff (fs : List (String × JSVal)) (k : String) :
    lookupField fs k = none ↔ fs.any (fun p => p.1 = k) = false := by
  induction fs with
  | nil => simp [lookupField]
  | cons p rest ih =>
      obtain ⟨k1, v1⟩ := p
      by_cases h : k1 = k <;> simp [lookupField, h, ih]

theorem lookupField_isSome_of_mem {fs : List (String × JSVal)} {k : String}
    {v : JSVal} (h : (k, v) ∈ fs) : (lookupField fs k).isSome = true := by
  induction fs with
  | nil => simp at h
  | cons p rest ih =>
      obtain ⟨k1, v1⟩ := p
      by_cases h1 : k1 = k
      · simp [lookupField, h1]
      · rcases List.mem_cons.1 h with h2 | h2
        · rw [Prod.mk.injEq] at h2
          exact absurd h2.1.symm h1
        · simp [lookupField, h1, ih h2]

theorem uniqKeys_cons {k : String} {v : JSVal} {rest : List (String × JSVal)} :
    uniqKeys ((k, v) :: rest) = true ↔
      lookupField rest k = none ∧ uniqKeys rest = true := by
  rw [lookupField_eq_none_iff]
  simp [uniqKeys]

theorem lookupField_of_mem_uniq {fs : List (String × JSVal)} {k : String}
    {v : JSVal} (hu : uniqKeys fs = true) (h : (k, v) ∈ fs) :
    lookupField fs k = some v := by
  induction fs with
  | nil => simp at h
  | cons p rest ih =>
      obtain ⟨k1, v1⟩ := p
      rw [uniqKeys_cons] at hu
      rcases List.mem_cons.1 h with h2 | h2
      · rw [Prod.mk.injEq] at h2
        simp [lookupField, h2.1.symm, h2.2]
      · by_cases h1 : k1 = k
        · subst h1
          have hs := lookupField_isSome_of_mem h2
          rw [hu.1] at hs
          simp at hs
        · simp [lookupField, h1, ih hu.2 h2]

theorem uniqKeys_setField (fs : List (String × JSVal)) (k : String) (v : JSVal)
    (h : uniqKeys fs = true) : uniqKeys (setField fs k v) = true := by
  induction fs with
  | nil => simp [setField, uniqKeys]
  | cons p rest ih =>
      obtain ⟨k1, v1⟩ := p
      rw [uniqKeys_cons] at h
      by_cases h1 : k1 = k
      · subst h1
        simp only [setField, if_pos rfl]
        exact uniqKeys_cons.2 h
      · simp only [setField, if_neg h1]
        exact uniqKeys_cons.2
          ⟨by rw [lookupField_setField_ne _ _ _ _ h1]; exact h.1, ih h.2⟩

theorem lookupField_deleteField_self (fs : List (String × JSVal)) (k : String) :
    lookupField (deleteField fs k) k = none := by
  induction fs with
  | nil => simp [deleteField, lookupField]
  | cons p rest ih =>
      obtain ⟨k1, v1⟩ := p
      by_cases h : k1 = k
      · simpa [deleteField, h] using ih
      · simpa [deleteField, lookupField, h] using ih

theorem lookupField_deleteField_ne (fs : List (String × JSVal)) (k k' : String)
    (h : k' ≠ k) : lookupField (deleteField fs k) k' = lookupField fs k' := by
  induction fs with
  | nil => simp [deleteField, lookupField]
  | cons p rest ih =>
      obtain ⟨k1, v1⟩ := p
      by_cases h1 : k1 = k
      · subst h1
        have h2 : k1 ≠ k' := Ne.symm h
        simpa [deleteField, lookupField, h2] using ih
      · simp [deleteField, lookupField, h1, ih]

theorem uniqKeys_deleteField (fs : List (String × JSVal)) (k : String)
    (h : uniqKeys fs = true) : uniqKeys (deleteField fs k) = true := by
  induction fs with
  | nil => simp [deleteField, uniqKeys]
  | cons p rest ih =>
      obtain ⟨k1, v1⟩ := p
      rw [uniqKeys_cons] at h
      by_cases h1 : k1 = k
      · simpa [deleteField, h1] using ih h.2
      · simp only [deleteField, if_neg h1]
        exact uniqKeys_cons.2
          ⟨by rw [lookupField_deleteField_ne _ _ _ h1]; exact h.1, ih h.2⟩

theorem setElem_getD (es : List JSVal) (i : Nat) (v : JSVal) :
    (setElem es i v)[i]?.getD JSVal.undefined = v := by
  unfold setElem
  by_cases h : i < es.length
  · rw [if_pos h, List.getElem?_set_eq_of_lt _ (by simpa using h)]
    rfl
  · rw [if_neg h, List.append_assoc, List.getElem?_append_right (by omega)]
    rw [List.getElem?_append_right (by simp)]
    simp

theorem getD_eq_undef_of_ge (es : List JSVal) (i : Nat)
    (h : es.length ≤ i) : es[i]?.getD JSVal.undefined = JSVal.undefined := by
  rw [List.getElem?_eq_none (by omega)]
  rfl

/-- `isContainer` survives the shallow copy taken by `set`. -/
theorem isContainer_copyContainer (c : JSVal) :
    isContainer (copyContainer c) = isContainer c := by
  cases c <;> rfl

/-- Reading back the key just assigned into a container yields the assigned
value. -/
theorem getKey_setKey (c : JSVal) (k : String) (v : JSVal)
    (h : isContainer c = true) : getKey (setKey c k v) k = v := by
  cases c with
  | obj fs => simp [setKey, getKey, lookupField_setField_self]
  | arr es ps =>
      cases hidx : strToIndex k with
      | some i => simp [setKey, getKey, hidx, setElem_getD]
      | none => simp [setKey, getKey, hidx, lookupField_setField_self]
  | null => simp [isContainer] at h
  | undefined => simp [isContainer] at h
  | bool b => simp [isContainer] at h
  | num n => simp [isContainer] at h
  | str s => simp [isContainer] at h
  | fn id => simp [isContainer] at h

/-- An absent key reads as `undefined`. -/
theorem getKey_eq_undef_of_not_hasKey (c : JSVal) (k : String)
    (h : hasKey c k = false) : getKey c k = JSVal.undefined := by
  cases c with
  | obj fs =>
      simp only [hasKey] at h
      cases hl : lookupField fs k with
      | none => simp [getKey, hl]
      | some v => rw [hl] at h; simp at h
  | arr es ps =>
      cases hidx : strToIndex k with
      | some i =>
          simp [hasKey, hidx] at h
          simp [getKey, hidx, getD_eq_undef_of_ge es i h]
      | none =>
          simp only [hasKey, hidx] at h
          cases hl : lookupField ps k with
          | none => simp [getKey, hidx, hl]
          | some v => rw [hl] at h; simp at h
  | null => rfl
  | undefined => rfl
  | bool b => rfl
  | num n => rfl
  | str s => rfl
  | fn id => rfl

theorem wfFields_lookup {fs : List (String × JSVal)} {k : String} {v : JSVal}
    (hw : wfFields fs = true) (h : lookupField fs k = some v) : wfV v = true := by
  induction fs with
  | nil => simp [lookupField] at h
  | cons p rest ih =>
      obtain ⟨k1, v1⟩ := p
      rw [show wfFields ((k1, v1) :: rest) = (wfV v1 && wfFields rest) from rfl,
        Bool.and_eq_true] at hw
      by_cases h1 : k1 = k
      · simp [lookupField, h1] at h
        rw [← h]
        exact hw.1
      · simp [lookupField, h1] at h
        exact ih hw.2 h

/-! ## Lemmas about the recursor of `set` -/

/-- The recursor can only fail with `invalidIntermediate`; `invalidPath` is
raised by the empty-path guard alone. -/
theorem setRec_ne_invalidPath (current : JSVal) (keys : List String)
    (value : JSVal) : setRec current keys value ≠ .error .invalidPath := by
  induction keys generalizing current with
  | nil => simp [setRec]
  | cons k rest ih =>
      simp only [setRec]
      by_cases h : isContainer current
      · rw [if_pos h]
        cases hr : setRec (getKey current k) rest value with
        | ok c => simp
        | error e =>
            cases e with
            | invalidPath => exact absurd hr (ih (getKey current k))
            | invalidIntermediate => simp
      · rw [if_neg h]
        simp

/-- The recursor fails (with `invalidIntermediate`) exactly when the greedy
traversal meets a non-container while segments remain, and succeeds
otherwise. -/
theorem setRec_cases (current : JSVal) (keys : List String) (value : JSVal) :
    (reachesBad current keys = true ∧
      setRec current keys value = .error .invalidIntermediate)
    ∨ (reachesBad current keys = false ∧
      ∃ r, setRec current keys value = .ok r) := by
  induction keys generalizing current with
  | nil => exact Or.inr ⟨rfl, value, rfl⟩
  | cons k rest ih =>
      by_cases h : isContainer current
      · rcases ih (getKey current k) with ⟨hbad, herr⟩ | ⟨hgood, r, hok⟩
        · refine Or.inl ⟨by simp [reachesBad, hbad], ?_⟩
          simp only [setRec, if_pos h, herr]
        · refine Or.inr ⟨by simp [reachesBad, h, hgood], ?_⟩
          exact ⟨setKey (copyContainer current) k r, by simp only [setRec, if_pos h, hok]⟩
      · refine Or.inl ⟨by simp [reachesBad, h], ?_⟩
        simp only [setRec, if_neg h]

theorem setRec_error_iff (current : JSVal) (keys : List String) (value : JSVal) :
    setRec current keys value = .error .invalidIntermediate ↔
      reachesBad current keys = true := by
  rcases setRec_cases current keys value with ⟨hb, he⟩ | ⟨hb, r, ho⟩
  · simp [hb, he]
  · simp [hb, ho]

theorem setRec_ok_iff (current : JSVal) (keys : List String) (value : JSVal) :
    (∃ r, setRec current keys value = .ok r) ↔
      reachesBad current keys = false := by
  rcases setRec_cases current keys value with ⟨hb, he⟩ | ⟨hb, r, ho⟩
  · simp [hb, he]
  · exact ⟨fun _ => hb, fun _ => ⟨r, ho⟩⟩

/-- Reading back along the updated path yields the installed value. -/
theorem setRec_traverse {current : JSVal} {keys : List String} {value r : JSVal}
    (h : setRec current keys value = .ok r) : traverse r keys = value := by
  induction keys generalizing current r with
  | nil =>
      simp [setRec] at h
      simp [traverse, h]
  | cons k rest ih =>
      by_cases hc : isContainer current
      · simp only [setRec, if_pos hc] at h
        cases hr : setRec (getKey current k) rest value with
        | ok c' =>
            rw [hr] at h
            simp at h
            have hcopy : isContainer (copyContainer current) = true := by
              rw [isContainer_copyContainer]; exact hc
            rw [show traverse r (k :: rest) = traverse (getKey r k) rest from rfl,
              ← h, getKey_setKey _ _ _ hcopy]
            exact ih hr
        | error e => rw [hr] at h; simp at h
      · simp only [setRec, if_neg hc] at h
        simp at h

/-- `reachesBad` said as the spec says it: some value reached by a
non-terminal position of the segment list is not a container. -/
theorem reachesBad_iff_exists (c : JSVal) (ks : List String) :
    reachesBad c ks = true ↔
      ∃ pre k post, ks = pre ++ k :: post ∧
        isContainer (traverse c pre) = false := by
  induction ks generalizing c with
  | nil => simp [reachesBad]
  | cons k rest ih =>
      constructor
      · intro h
        rw [show reachesBad c (k :: rest)
            = (!isContainer c || reachesBad (getKey c k) rest) from rfl] at h
        rcases Bool.or_eq_true_iff.1 h with h1 | h1
        · exact ⟨[], k, rest, rfl, by simpa [traverse] using h1⟩
        · obtain ⟨pre, k', post, hks, hc⟩ := (ih (getKey c k)).1 h1
          exact ⟨k :: pre, k', post, by rw [List.cons_append, hks],
            by simpa [traverse] using hc⟩
      · rintro ⟨pre, k', post, hks, hc⟩
        rw [show reachesBad c (k :: rest)
            = (!isContainer c || reachesBad (getKey c k) rest) from rfl]
        cases pre with
        | nil =>
            simp [traverse] at hc
            simp [hc]
        | cons k1 pre' =>
            rw [List.cons_append, List.cons.injEq] at hks
            by_cases hcc : isContainer c
            · refine Bool.or_eq_true_iff.2 (Or.inr ?_)
              refine (ih (getKey c k)).2 ⟨pre', k', post, hks.2, ?_⟩
              rw [← hks.1] at hc
              simpa [traverse] using hc
            · simp [hcc]

/-- Traversal splits over segment concatenation. -/
theorem traverse_append (root : JSVal) (l1 l2 : List String) :
    traverse root (l1 ++ l2) = traverse (traverse root l1) l2 := by
  induction l1 generalizing root with
  | nil => rfl
  | cons k l1' ih =>
      rw [show (k :: l1') ++ l2 = k :: (l1' ++ l2) from rfl,
        show traverse root (k :: (l1' ++ l2))
          = traverse (getKey root k) (l1' ++ l2) from rfl,
        show traverse root (k :: l1') = traverse (getKey root k) l1' from rfl]
      exact ih (getKey root k)

/-- If every traversal value up to and including the one reached by the
whole prefix `ks` is a container, the traversal of `ks ++ [k]` never meets
a non-container — the terminal value itself is never checked. -/
theorem reachesBad_false_of_prefix_containers (ks : List String) (k : String) :
    ∀ (root : JSVal),
      (∀ i, i ≤ ks.length → isContainer (traverse root (ks.take i)) = true) →
      reachesBad root (ks ++ [k]) = false := by
  induction ks with
  | nil =>
      intro root h
      have h0 := h 0 (by omega)
      rw [show traverse root (List.take 0 ([] : List String)) = root from rfl] at h0
      rw [show reachesBad root ([] ++ [k])
          = (!isContainer root || reachesBad (getKey root k) []) from rfl, h0]
      rfl
  | cons k1 ks' ih =>
      intro root h
      have h0 := h 0 (by omega)
      rw [show traverse root (List.take 0 (k1 :: ks')) = root from rfl] at h0
      rw [show (k1 :: ks') ++ [k] = k1 :: (ks' ++ [k]) from rfl,
        show reachesBad root (k1 :: (ks' ++ [k]))
          = (!isContainer root || reachesBad (getKey root k1) (ks' ++ [k]))
          from rfl, h0]
      simp only [Bool.not_true, Bool.false_or]
      refine ih (getKey root k1) ?_
      intro i hi
      have hii := h (i + 1) (by simp; omega)
      rw [show List.take (i + 1) (k1 :: ks') = k1 :: List.take i ks' from rfl,
        show traverse root (k1 :: List.take i ks')
          = traverse (getKey root k1) (List.take i ks') from rfl] at hii
      exact hii

/-! ## Characterizations of `pick`, `omit` and `merge`'s key loop -/

/-- The accumulator step of `pick`. -/
theorem pick_foldl_lookup (o : JSVal) (K : List String)
    (acc : List (String × JSVal)) (k : String) :
    lookupField
      (K.foldl (fun acc k =>
        if hasKey o k then setField acc k (getKey o k) else acc) acc) k =
      if k ∈ K ∧ hasKey o k = true then some (getKey o k)
      else lookupField acc k := by
  induction K generalizing acc with
  | nil => simp
  | cons k1 K' ih =>
      rw [List.foldl_cons, ih]
      by_cases hk : k = k1
      · subst hk
        by_cases hh : hasKey o k = true
        · by_cases hm : k ∈ K'
          · simp [hm, hh]
          · simp [hm, hh, lookupField_setField_self]
        · simp [hh]
      · by_cases hh : hasKey o k = true
        · by_cases hm : k ∈ K'
          · simp [hm, hh]
          · by_cases hh1 : hasKey o k1 = true
            · simp [hm, hk, hh, hh1, lookupField_setField_ne _ _ _ _ hk]
            · simp [hm, hk, hh, hh1]
        · by_cases hh1 : hasKey o k1 = true
          · simp [hh, hh1, lookupField_setField_ne _ _ _ _ hk]
          · simp [hh, hh1]

theorem uniqKeys_pick_foldl (o : JSVal) (K : List String)
    (acc : List (String × JSVal)) (h : uniqKeys acc = true) :
    uniqKeys
      (K.foldl (fun acc k =>
        if hasKey o k then setField acc k (getKey o k) else acc) acc) = true := by
  induction K generalizing acc with
  | nil => simpa
  | cons k1 K' ih =>
      rw [List.foldl_cons]
      by_cases hh : hasKey o k1
      · exact ih _ (by rw [if_pos hh]; exact uniqKeys_setField _ _ _ h)
      · exact ih _ (by rw [if_neg hh]; exact h)

/-- The accumulator step of `omit`. -/
theorem omit_foldl_lookup (K : List String) (acc : List (String × JSVal))
    (k : String) :
    lookupField
      (K.foldl (fun acc k =>
        if (lookupField acc k).isSome then deleteField acc k else acc) acc) k =
      if k ∈ K then none else lookupField acc k := by
  induction K generalizing acc with
  | nil => simp
  | cons k1 K' ih =>
      rw [List.foldl_cons, ih]
      by_cases hk : k = k1
      · subst hk
        by_cases hm : k ∈ K'
        · simp [hm]
        · by_cases hs : (lookupField acc k).isSome = true
          · simp [hm, hs, lookupField_deleteField_self]
          · have hnone : lookupField acc k = none := by
              cases hl : lookupField acc k with
              | none => rfl
              | some v => rw [hl] at hs; simp at hs
            simp [hm, hs, hnone]
      · by_cases hm : k ∈ K'
        · simp [hm]
        · have hmm : ¬(k ∈ k1 :: K') := by simp [hk, hm]
          by_cases hs : (lookupField acc k1).isSome = true
          · simp [hm, hmm, hs, lookupField_deleteField_ne _ _ _ hk]
          · simp [hm, hmm, hs]

theorem uniqKeys_omit_foldl (K : List String) (acc : List (String × JSVal))
    (h : uniqKeys acc = true) :
    uniqKeys
      (K.foldl (fun acc k =>
        if (lookupField acc k).isSome then deleteField acc k else acc) acc)
      = true := by
  induction K generalizing acc with
  | nil => simpa
  | cons k1 K' ih =>
      rw [List.foldl_cons]
      by_cases hs : (lookupField acc k1).isSome
      · exact ih _ (by rw [if_pos hs]; exact uniqKeys_deleteField _ _ h)
      · exact ih _ (by rw [if_neg hs]; exact h)

/-- Unfolding equations of `mergeFields`. -/
theorem mergeFields_nil (result : List (String × JSVal)) :
    mergeFields result [] = result := rfl

theorem mergeFields_cons (result : List (String × JSVal)) (k : String)
    (bv : JSVal) (rest : List (String × JSVal)) :
    mergeFields result ((k, bv) :: rest) =
      mergeFields
        (setField result k
          (mergeStep ((lookupField result k).getD .undefined) bv)) rest := rfl

/-- Per-key characterization of `merge`'s key loop: a key of `b` (unique keys)
is assigned `mergeStep` of the pre-loop value of `result` at that key, every
other key keeps its `result` value. -/
theorem mergeFields_lookup (R bfs : List (String × JSVal)) (k : String)
    (hu : uniqKeys bfs = true) :
    lookupField (mergeFields R bfs) k =
      match lookupField bfs k with
      | some bv => some (mergeStep ((lookupField R k).getD .undefined) bv)
      | none => lookupField R k := by
  induction bfs generalizing R with
  | nil => simp [mergeFields_nil, lookupField]
  | cons p rest ih =>
      obtain ⟨k1, bv⟩ := p
      rw [uniqKeys_cons] at hu
      rw [mergeFields_cons, ih _ hu.2]
      by_cases hk : k = k1
      · subst hk
        rw [hu.1]
        simp [lookupField, lookupField_setField_self]
      · have h1 : ¬(k1 = k) := fun hh => hk hh.symm
        rw [lookupField_setField_ne _ _ _ _ hk]
        simp [lookupField, h1]

theorem uniqKeys_mergeFields (R bfs : List (String × JSVal))
    (hR : uniqKeys R = true) : uniqKeys (mergeFields R bfs) = true := by
  induction bfs generalizing R with
  | nil => simpa [mergeFields_nil]
  | cons p rest ih =>
      obtain ⟨k1, bv⟩ := p
      rw [mergeFields_cons]
      exact ih _ (uniqKeys_setField _ _ _ hR)

/-! ## Deep-equality machinery -/

theorem equivV_obj (fs1 fs2 : List (String × JSVal)) :
    equivV (.obj fs1) (.obj fs2) = (equivFields fs1 fs2 && keysIncl fs2 fs1) := rfl

theorem equivV_arr (es1 es2 : List JSVal) (ps1 ps2 : List (String × JSVal)) :
    equivV (.arr es1 ps1) (.arr es2 ps2) =
      (equivElems es1 es2 && (equivFields ps1 ps2 && keysIncl ps2 ps1)) := rfl

theorem equivFields_cons (k : String) (v : JSVal)
    (rest fs2 : List (String × JSVal)) :
    equivFields ((k, v) :: rest) fs2 =
      ((match lookupField fs2 k with
        | some v2 => equivV v v2
        | none => false) && equivFields rest fs2) := rfl

theorem wfV_obj (fs : List (String × JSVal)) :
    wfV (.obj fs) = (uniqKeys fs && wfFields fs) := rfl

theorem wfV_arr (es : List JSVal) (ps : List (String × JSVal)) :
    wfV (.arr es ps) = (wfElems es && (uniqKeys ps && wfFields ps)) := rfl

theorem mergeStep_obj (av : JSVal) (bfs : List (String × JSVal)) :
    mergeStep av (.obj bfs) =
      .obj (mergeFields
        (spreadFields (if truthy av then av else JSVal.obj [])) bfs) := rfl

theorem mergeStep_not_obj (av bv : JSVal)
    (h : ∀ bfs, bv ≠ JSVal.obj bfs) : mergeStep av bv = bv := by
  cases bv <;> first | rfl | exact absurd rfl (h _)

theorem spreadFields_falsy (v : JSVal) (h : truthy v = false) :
    spreadFields v = [] := by
  cases v with
  | str s =>
      simp [truthy] at h
      subst h
      rfl
  | bool b => rfl
  | null => rfl
  | undefined => rfl
  | num n => rfl
  | fn id => simp [truthy] at h
  | obj fs => simp [truthy] at h
  | arr es ps => simp [truthy] at h

theorem lookupField_mem {fs : List (String × JSVal)} {k : String} {v : JSVal}
    (h : lookupField fs k = some v) : (k, v) ∈ fs := by
  induction fs with
  | nil => simp [lookupField] at h
  | cons p rest ih =>
      obtain ⟨k1, v1⟩ := p
      by_cases h1 : k1 = k
      · subst h1
        simp [lookupField] at h
        simp [h]
      · simp [lookupField, h1] at h
        exact List.mem_cons_of_mem _ (ih h)

theorem sizeOf_lookupField {fs : List (String × JSVal)} {k : String} {v : JSVal}
    (h : lookupField fs k = some v) : sizeOf v < sizeOf fs := by
  have hm := List.sizeOf_lt_of_mem (lookupField_mem h)
  have hp : sizeOf v < sizeOf (k, v) := by simp
  omega

theorem wfElems_mem {es : List JSVal} {v : JSVal} (hw : wfElems es = true)
    (h : v ∈ es) : wfV v = true := by
  induction es with
  | nil => simp at h
  | cons e rest ih =>
      rw [show wfElems (e :: rest) = (wfV e && wfElems rest) from rfl,
        Bool.and_eq_true] at hw
      rcases List.mem_cons.1 h with h1 | h1
      · rw [h1]; exact hw.1
      · exact ih hw.2 h1

theorem keysIncl_of_pointwise {fs1 fs2 : List (String × JSVal)}
    (h : ∀ k, (lookupField fs2 k).isSome = true →
      (lookupField fs1 k).isSome = true) : keysIncl fs2 fs1 = true := by
  rw [keysIncl, List.all_eq_true]
  rintro ⟨k, v⟩ hm
  exact h k (lookupField_isSome_of_mem hm)

theorem equivFields_of_pointwise {fs1 fs2 : List (String × JSVal)}
    (hu : uniqKeys fs1 = true)
    (h : ∀ k v, lookupField fs1 k = some v →
      ∃ v2, lookupField fs2 k = some v2 ∧ equivV v v2 = true) :
    equivFields fs1 fs2 = true := by
  induction fs1 with
  | nil => rfl
  | cons p rest ih =>
      obtain ⟨k, v⟩ := p
      rw [uniqKeys_cons] at hu
      rw [equivFields_cons, Bool.and_eq_true]
      constructor
      · obtain ⟨v2, hl2, he⟩ := h k v (by simp [lookupField])
        rw [hl2]
        exact he
      · refine ih hu.2 ?_
        intro k' v' hl'
        have hk' : ¬(k = k') := by
          intro hh
          subst hh
          rw [hu.1] at hl'
          cases hl'
        exact h k' v' (by simp [lookupField, hk', hl'])

/-- Two objects are deeply equal when their key lookups agree pointwise up to
deep equality of values (first key list unique). -/
theorem equivV_obj_of_pointwise {fs1 fs2 : List (String × JSVal)}
    (hu : uniqKeys fs1 = true)
    (h : ∀ k, (lookupField fs1 k = none ∧ lookupField fs2 k = none)
      ∨ (∃ v1 v2, lookupField fs1 k = some v1 ∧ lookupField fs2 k = some v2
          ∧ equivV v1 v2 = true)) :
    equivV (.obj fs1) (.obj fs2) = true := by
  rw [equivV_obj, Bool.and_eq_true]
  constructor
  · refine equivFields_of_pointwise hu ?_
    intro k v hl
    rcases h k with ⟨h1, _⟩ | ⟨v1, v2, h1, h2, he⟩
    · rw [hl] at h1; cases h1
    · rw [hl] at h1
      obtain rfl : v = v1 := by injection h1
      exact ⟨v2, h2, he⟩
  · refine keysIncl_of_pointwise ?_
    intro k hs
    rcases h k with ⟨_, h2⟩ | ⟨v1, v2, h1, h2, _⟩
    · rw [h2] at hs; simp at hs
    · rw [h1]; rfl

theorem equivElems_refl {es : List JSVal}
    (h : ∀ v ∈ es, equivV v v = true) : equivElems es es = true := by
  induction es with
  | nil => rfl
  | cons e rest ih =>
      rw [show equivElems (e :: rest) (e :: rest)
          = (equivV e e && equivElems rest rest) from rfl, Bool.and_eq_true]
      exact ⟨h e (by simp), ih (fun v hv => h v (List.mem_cons_of_mem _ hv))⟩

/-- Deep equality is reflexive on well-formed values. -/
theorem equivV_refl (v : JSVal) (hw : wfV v = true) : equivV v v = true := by
  suffices H : ∀ (N : Nat) (v : JSVal), sizeOf v ≤ N → wfV v = true →
      equivV v v = true from H (sizeOf v) v le_rfl hw
  intro N
  induction N with
  | zero =>
      intro v hs
      cases v <;> simp at hs
  | succ N ih =>
      intro v hs hwf
      cases v with
      | null => rfl
      | undefined => rfl
      | bool b => simp [equivV]
      | num n => simp [equivV]
      | str s => simp [equivV]
      | fn id => simp [equivV]
      | obj fs =>
          rw [wfV_obj, Bool.and_eq_true] at hwf
          refine equivV_obj_of_pointwise hwf.1 ?_
          intro k
          cases hl : lookupField fs k with
          | none => exact Or.inl ⟨rfl, rfl⟩
          | some v1 =>
              refine Or.inr ⟨v1, v1, rfl, rfl, ?_⟩
              have hsz : sizeOf v1 < sizeOf fs := sizeOf_lookupField hl
              have hso : sizeOf fs < sizeOf (JSVal.obj fs) := by simp
              exact ih v1 (by omega) (wfFields_lookup hwf.2 hl)
      | arr es ps =>
          rw [wfV_arr, Bool.and_eq_true, Bool.and_eq_true] at hwf
          have hsa1 : sizeOf es < sizeOf (JSVal.arr es ps) := by
            simp only [JSVal.arr.sizeOf_spec]
            omega
          have hsa2 : sizeOf ps < sizeOf (JSVal.arr es ps) := by
            simp only [JSVal.arr.sizeOf_spec]
            omega
          rw [equivV_arr, Bool.and_eq_true, Bool.and_eq_true]
          refine ⟨equivElems_refl ?_, equivFields_of_pointwise hwf.2.1 ?_,
            keysIncl_of_pointwise fun k hk => hk⟩
          · intro v hv
            have hsz := List.sizeOf_lt_of_mem hv
            exact ih v (by omega) (wfElems_mem hwf.1 hv)
          · intro k v hl
            refine ⟨v, hl, ?_⟩
            have hsz : sizeOf v < sizeOf ps := sizeOf_lookupField hl
            exact ih v (by omega) (wfFields_lookup hwf.2.2 hl)

/-- Merging into an empty result deep-copies `b`: the loop of `merge({}, b)`
produces an object deeply equal to `b`. -/
theorem mergeFields_empty_equiv (bfs : List (String × JSVal))
    (hu : uniqKeys bfs = true) (hw : wfFields bfs = true) :
    equivV (.obj (mergeFields [] bfs)) (.obj bfs) = true := by
  suffices H : ∀ (N : Nat) (bfs : List (String × JSVal)), sizeOf bfs ≤ N →
      uniqKeys bfs = true → wfFields bfs = true →
      equivV (.obj (mergeFields [] bfs)) (.obj bfs) = true from
    H (sizeOf bfs) bfs le_rfl hu hw
  intro N
  induction N with
  | zero =>
      intro bfs hs
      cases bfs <;> simp at hs
  | succ N ih =>
      intro bfs hs hu hw
      refine equivV_obj_of_pointwise (uniqKeys_mergeFields [] bfs rfl) ?_
      intro k
      rw [mergeFields_lookup [] bfs k hu]
      cases hl : lookupField bfs k with
      | none => exact Or.inl ⟨rfl, rfl⟩
      | some bv =>
          refine Or.inr ⟨mergeStep JSVal.undefined bv, bv, rfl, rfl, ?_⟩
          have hwv := wfFields_lookup hw hl
          cases bv with
          | obj bvfs =>
              rw [mergeStep_obj]
              rw [show truthy JSVal.undefined = false from rfl]
              simp only [Bool.false_eq_true, if_false]
              rw [show spreadFields (JSVal.obj []) = [] from rfl]
              have hs1 : sizeOf (JSVal.obj bvfs) < sizeOf bfs :=
                sizeOf_lookupField hl
              have hs2 : sizeOf bvfs < sizeOf (JSVal.obj bvfs) := by simp
              rw [wfV_obj, Bool.and_eq_true] at hwv
              exact ih bvfs (by omega) hwv.1 hwv.2
          | null => exact equivV_refl _ hwv
          | undefined => exact equivV_refl _ hwv
          | bool b => exact equivV_refl _ hwv
          | num n => exact equivV_refl _ hwv
          | str s => exact equivV_refl _ hwv
          | fn id => exact equivV_refl _ hwv
          | arr es ps => exact equivV_refl _ hwv

/-- The loop of `merge(a, a)` reproduces `a` up to deep equality. -/
theorem mergeFields_self_equiv (fs : List (String × JSVal))
    (hu : uniqKeys fs = true) (hw : wfFields fs = true) :
    equivV (.obj (mergeFields fs fs)) (.obj fs) = true := by
  suffices H : ∀ (N : Nat) (fs : List (String × JSVal)), sizeOf fs ≤ N →
      uniqKeys fs = true → wfFields fs = true →
      equivV (.obj (mergeFields fs fs)) (.obj fs) = true from
    H (sizeOf fs) fs le_rfl hu hw
  intro N
  induction N with
  | zero =>
      intro fs hs
      cases fs <;> simp at hs
  | succ N ih =>
      intro fs hs hu hw
      refine equivV_obj_of_pointwise (uniqKeys_mergeFields fs fs hu) ?_
      intro k
      rw [mergeFields_lookup fs fs k hu]
      cases hl : lookupField fs k with
      | none => exact Or.inl ⟨rfl, rfl⟩
      | some v =>
          refine Or.inr ⟨mergeStep v v, v, rfl, rfl, ?_⟩
          have hwv := wfFields_lookup hw hl
          cases v with
          | obj vfs =>
              rw [mergeStep_obj]
              rw [show truthy (JSVal.obj vfs) = true from rfl, if_pos rfl]
              rw [show spreadFields (JSVal.obj vfs) = vfs from rfl]
              have hs1 : sizeOf (JSVal.obj vfs) < sizeOf fs :=
                sizeOf_lookupField hl
              have hs2 : sizeOf vfs < sizeOf (JSVal.obj vfs) := by simp
              rw [wfV_obj, Bool.and_eq_true] at hwv
              exact ih vfs (by omega) hwv.1 hwv.2
          | null => exact equivV_refl _ hwv
          | undefined => exact equivV_refl _ hwv
          | bool b => exact equivV_refl _ hwv
          | num n => exact equivV_refl _ hwv
          | str s => exact equivV_refl _ hwv
          | fn id => exact equivV_refl _ hwv
          | arr es ps => exact equivV_refl _ hwv

/-- `merge(x, b)` ignores everything about a falsy `x`: the loop body's
`result[key] || {}` and the empty spread of a falsy value coincide. -/
theorem mergeStep_falsy (av bv : JSVal) (h : truthy av = false) :
    mergeStep av bv = mergeStep JSVal.undefined bv := by
  cases bv with
  | obj bvfs =>
      rw [mergeStep_obj, mergeStep_obj, h,
        show truthy JSVal.undefined = false from rfl]
      simp only [Bool.false_eq_true, if_false]
  | null => rfl
  | undefined => rfl
  | bool b => rfl
  | num n => rfl
  | str s => rfl
  | fn id => rfl
  | arr es ps => rfl

/-- One loop assignment on an object value of `b` is exactly a recursive
`merge` call: `merge(av || {}, bv)` equals `merge(av, bv)` because a falsy
`av` spreads to nothing. -/
theorem mergeStep_eq_merge (av : JSVal) (bvfs : List (String × JSVal)) :
    mergeStep av (.obj bvfs) = merge av (.obj bvfs) := by
  rw [mergeStep_obj, show merge av (JSVal.obj bvfs)
      = JSVal.obj (mergeFields (spreadFields av) bvfs) from rfl]
  by_cases h : truthy av = true
  · rw [if_pos h]
  · rw [if_neg h, spreadFields_falsy av (Bool.not_eq_true _ ▸ h),
      show spreadFields (JSVal.obj []) = [] from rfl]

theorem mergeStep_undef_equiv (bv : JSVal) (hwv : wfV bv = true) :
    equivV (mergeStep JSVal.undefined bv) bv = true := by
  cases bv with
  | obj bvfs =>
      rw [mergeStep_obj, show truthy JSVal.undefined = false from rfl]
      simp only [Bool.false_eq_true, if_false]
      rw [show spreadFields (JSVal.obj []) = [] from rfl]
      rw [wfV_obj, Bool.and_eq_true] at hwv
      exact mergeFields_empty_equiv bvfs hwv.1 hwv.2
  | null => exact equivV_refl _ hwv
  | undefined => exact equivV_refl _ hwv
  | bool b => exact equivV_refl _ hwv
  | num n => exact equivV_refl _ hwv
  | str s => exact equivV_refl _ hwv
  | fn id => exact equivV_refl _ hwv
  | arr es ps => exact equivV_refl _ hwv

/-! ## The claims -/

/-- C7: for every Record `a`, `merge(a, a)` is deeply equal to `a`. -/
theorem merge_idempotent (fs : List (String × JSVal))
    (h : wfV (JSVal.obj fs) = true) :
    equivV (merge (JSVal.obj fs) (JSVal.obj fs)) (JSVal.obj fs) = true := by
  rw [wfV_obj, Bool.and_eq_true] at h
  rw [show merge (JSVal.obj fs) (JSVal.obj fs)
      = JSVal.obj (mergeFields fs fs) from rfl]
  exact mergeFields_self_equiv fs h.1 h.2

/-- Witness for C7 at `{a: 1, b: {x: "s"}}`. -/
theorem merge_idempotent_witness :
    wfV (JSVal.obj [("a", JSVal.num 1),
      ("b", JSVal.obj [("x", JSVal.str "s")])]) = true
    ∧ equivV
        (merge
          (JSVal.obj [("a", JSVal.num 1),
            ("b", JSVal.obj [("x", JSVal.str "s")])])
          (JSVal.obj [("a", JSVal.num 1),
            ("b", JSVal.obj [("x", JSVal.str "s")])]))
        (JSVal.obj [("a", JSVal.num 1),
          ("b", JSVal.obj [("x", JSVal.str "s")])]) = true :=
  ⟨rfl, merge_idempotent _ rfl⟩

/-- C5: for every Record `r` and key set `K` drawn from `r`'s keys,
`merge(pick(r, K), omit(r, K))` is deeply equal to `r`. -/
theorem pick_omit_complement (fs : List (String × JSVal)) (K : List String)
    (hw : wfV (JSVal.obj fs) = true)
    (hK : ∀ k ∈ K, hasKey (JSVal.obj fs) k = true) :
    equivV (merge (pick (JSVal.obj fs) K) («omit» (JSVal.obj fs) K))
      (JSVal.obj fs) = true := by
  rw [wfV_obj, Bool.and_eq_true] at hw
  rw [show merge (pick (JSVal.obj fs) K) («omit» (JSVal.obj fs) K)
      = JSVal.obj (mergeFields
          (K.foldl (fun acc k =>
            if hasKey (JSVal.obj fs) k then setField acc k (getKey (JSVal.obj fs) k)
            else acc) [])
          (K.foldl (fun acc k =>
            if (lookupField acc k).isSome then deleteField acc k else acc) fs))
      from rfl]
  have huO : uniqKeys (K.foldl (fun acc k =>
      if (lookupField acc k).isSome then deleteField acc k else acc) fs)
      = true := uniqKeys_omit_foldl K fs hw.1
  refine equivV_obj_of_pointwise
    (uniqKeys_mergeFields _ _ (uniqKeys_pick_foldl (JSVal.obj fs) K [] rfl)) ?_
  intro k
  rw [mergeFields_lookup _ _ k huO, omit_foldl_lookup, pick_foldl_lookup]
  by_cases hk : k ∈ K
  · rw [if_pos hk]
    have hh : hasKey (JSVal.obj fs) k = true := hK k hk
    rw [if_pos ⟨hk, hh⟩]
    rw [show hasKey (JSVal.obj fs) k = (lookupField fs k).isSome from rfl] at hh
    cases hl : lookupField fs k with
    | none => rw [hl] at hh; simp at hh
    | some v =>
        refine Or.inr ⟨v, v, ?_, rfl, equivV_refl v (wfFields_lookup hw.2 hl)⟩
        rw [show getKey (JSVal.obj fs) k
            = (lookupField fs k).getD JSVal.undefined from rfl, hl]
        rfl
  · rw [if_neg hk, if_neg (by simp [hk])]
    cases hl : lookupField fs k with
    | none => exact Or.inl ⟨rfl, rfl⟩
    | some ov =>
        refine Or.inr ⟨mergeStep JSVal.undefined ov, ov, rfl, rfl,
          mergeStep_undef_equiv ov (wfFields_lookup hw.2 hl)⟩

/-- Witness for C5 at `r = {a: 1, b: {x: 2}, c: [3]}`, `K = ["a", "c"]`. -/
theorem pick_omit_complement_witness :
    (wfV (JSVal.obj [("a", JSVal.num 1), ("b", JSVal.obj [("x", JSVal.num 2)]),
        ("c", JSVal.arr [JSVal.num 3] [])]) = true
      ∧ ∀ k ∈ ["a", "c"],
          hasKey (JSVal.obj [("a", JSVal.num 1),
            ("b", JSVal.obj [("x", JSVal.num 2)]),
            ("c", JSVal.arr [JSVal.num 3] [])]) k = true)
    ∧ equivV
        (merge
          (pick (JSVal.obj [("a", JSVal.num 1),
            ("b", JSVal.obj [("x", JSVal.num 2)]),
            ("c", JSVal.arr [JSVal.num 3] [])]) ["a", "c"])
          («omit» (JSVal.obj [("a", JSVal.num 1),
            ("b", JSVal.obj [("x", JSVal.num 2)]),
            ("c", JSVal.arr [JSVal.num 3] [])]) ["a", "c"]))
        (JSVal.obj [("a", JSVal.num 1), ("b", JSVal.obj [("x", JSVal.num 2)]),
          ("c", JSVal.arr [JSVal.num 3] [])]) = true :=
  ⟨⟨rfl, by decide⟩, pick_omit_complement _ _ rfl (by decide)⟩

/-- C10: `pick` keeps a key that is present with value `undefined`:
membership is decided by key presence (`key in obj`), not by the value. -/
theorem pick_preserves_undefined (fs : List (String × JSVal)) (k : String)
    (h : lookupField fs k = some JSVal.undefined) :
    pick (JSVal.obj fs) [k] = JSVal.obj [(k, JSVal.undefined)] := by
  rw [pick, List.foldl_cons, List.foldl_nil,
    show hasKey (JSVal.obj fs) k = (lookupField fs k).isSome from rfl, h]
  simp only [Option.isSome_some, if_true]
  rw [show getKey (JSVal.obj fs) k
      = (lookupField fs k).getD JSVal.undefined from rfl, h]
  rfl

/-- Witness for C10 at `{a: 1, b: undefined}`, key `b`. -/
theorem pick_preserves_undefined_witness :
    lookupField [("a", JSVal.num 1), ("b", JSVal.undefined)] "b"
        = some JSVal.undefined
    ∧ pick (JSVal.obj [("a", JSVal.num 1), ("b", JSVal.undefined)]) ["b"]
        = JSVal.obj [("b", JSVal.undefined)] :=
  ⟨rfl, pick_preserves_undefined _ _ rfl⟩

/-- C1: for Records `a` and `b`, `merge(a, b)` has the union of the two key
sets; at a key present in both, a Record value of `b` yields the recursive
merge of `a`'s value (an absent or falsy value spreading to nothing, exactly
like an empty Record) with `b`'s value, and any other value of `b` (scalar,
`null`, Sequence, function) replaces `a`'s value wholesale. -/
theorem merge_union_overlap (afs bfs : List (String × JSVal))
    (_hwa : wfV (JSVal.obj afs) = true)
    (hwb : wfV (JSVal.obj bfs) = true) :
    (∀ k, hasKey (merge (JSVal.obj afs) (JSVal.obj bfs)) k
        = (hasKey (JSVal.obj afs) k || hasKey (JSVal.obj bfs) k))
    ∧ (∀ k, hasKey (JSVal.obj afs) k = true →
        hasKey (JSVal.obj bfs) k = true →
        getKey (merge (JSVal.obj afs) (JSVal.obj bfs)) k =
          match getKey (JSVal.obj bfs) k with
          | JSVal.obj bvfs => merge (getKey (JSVal.obj afs) k) (JSVal.obj bvfs)
          | bv => bv) := by
  rw [wfV_obj, Bool.and_eq_true] at hwb
  have hmerge : merge (JSVal.obj afs) (JSVal.obj bfs)
      = JSVal.obj (mergeFields afs bfs) := rfl
  constructor
  · intro k
    rw [hmerge,
      show hasKey (JSVal.obj (mergeFields afs bfs)) k
        = (lookupField (mergeFields afs bfs) k).isSome from rfl,
      show hasKey (JSVal.obj afs) k = (lookupField afs k).isSome from rfl,
      show hasKey (JSVal.obj bfs) k = (lookupField bfs k).isSome from rfl,
      mergeFields_lookup afs bfs k hwb.1]
    cases hlb : lookupField bfs k <;> simp
  · intro k ha hb
    rw [show hasKey (JSVal.obj afs) k = (lookupField afs k).isSome from rfl] at ha
    rw [show hasKey (JSVal.obj bfs) k = (lookupField bfs k).isSome from rfl] at hb
    rw [hmerge,
      show getKey (JSVal.obj (mergeFields afs bfs)) k
        = (lookupField (mergeFields afs bfs) k).getD JSVal.undefined from rfl,
      show getKey (JSVal.obj afs) k
        = (lookupField afs k).getD JSVal.undefined from rfl,
      show getKey (JSVal.obj bfs) k
        = (lookupField bfs k).getD JSVal.undefined from rfl,
      mergeFields_lookup afs bfs k hwb.1]
    cases hlb : lookupField bfs k with
    | none => rw [hlb] at hb; simp at hb
    | some bv =>
        cases hla : lookupField afs k with
        | none => rw [hla] at ha; simp at ha
        | some av =>
            cases bv with
            | obj bvfs => exact mergeStep_eq_merge av bvfs
            | null => rfl
            | undefined => rfl
            | bool b => rfl
            | num n => rfl
            | str s => rfl
            | fn id => rfl
            | arr es ps => rfl

/-- Witness for C1 at `a = {p: 1, q: {x: 1}}`, `b = {q: {y: 2}, r: [5]}`. -/
theorem merge_union_overlap_witness :
    (wfV (JSVal.obj [("p", JSVal.num 1),
        ("q", JSVal.obj [("x", JSVal.num 1)])]) = true
      ∧ wfV (JSVal.obj [("q", JSVal.obj [("y", JSVal.num 2)]),
        ("r", JSVal.arr [JSVal.num 5] [])]) = true)
    ∧ hasKey (merge (JSVal.obj [("p", JSVal.num 1),
        ("q", JSVal.obj [("x", JSVal.num 1)])])
        (JSVal.obj [("q", JSVal.obj [("y", JSVal.num 2)]),
          ("r", JSVal.arr [JSVal.num 5] [])])) "r" = true :=
  ⟨⟨rfl, rfl⟩, by
    rw [(merge_union_overlap
      [("p", JSVal.num 1), ("q", JSVal.obj [("x", JSVal.num 1)])]
      [("q", JSVal.obj [("y", JSVal.num 2)]), ("r", JSVal.arr [JSVal.num 5] [])]
      rfl rfl).1 "r"]
    rfl⟩

/-- C9: when `a`'s value at `k` is present but falsy and `b`'s value at `k`
is a Record, `merge(a, b)` at `k` is the merge of an empty Record with `b`'s
value — a deep copy of `b`'s value — exactly as if `k` were absent from `a`. -/
theorem merge_falsy_discarded (afs bfs : List (String × JSVal)) (k : String)
    (bvfs : List (String × JSVal))
    (hwb : wfV (JSVal.obj bfs) = true)
    (_hpresent : hasKey (JSVal.obj afs) k = true)
    (hfalsy : truthy (getKey (JSVal.obj afs) k) = false)
    (hbv : getKey (JSVal.obj bfs) k = JSVal.obj bvfs) :
    getKey (merge (JSVal.obj afs) (JSVal.obj bfs)) k
        = merge (JSVal.obj []) (JSVal.obj bvfs)
    ∧ equivV (getKey (merge (JSVal.obj afs) (JSVal.obj bfs)) k)
        (JSVal.obj bvfs) = true
    ∧ getKey (merge (JSVal.obj afs) (JSVal.obj bfs)) k
        = getKey (merge (JSVal.obj (deleteField afs k)) (JSVal.obj bfs)) k := by
  rw [wfV_obj, Bool.and_eq_true] at hwb
  have hlb : lookupField bfs k = some (JSVal.obj bvfs) := by
    rw [show getKey (JSVal.obj bfs) k
        = (lookupField bfs k).getD JSVal.undefined from rfl] at hbv
    cases hl : lookupField bfs k with
    | none => rw [hl] at hbv; cases hbv
    | some w => rw [hl] at hbv; exact congrArg some hbv
  have hgetA : getKey (JSVal.obj afs) k
      = (lookupField afs k).getD JSVal.undefined := rfl
  have hmain : getKey (merge (JSVal.obj afs) (JSVal.obj bfs)) k
      = mergeStep JSVal.undefined (JSVal.obj bvfs) := by
    rw [show merge (JSVal.obj afs) (JSVal.obj bfs)
        = JSVal.obj (mergeFields afs bfs) from rfl,
      show getKey (JSVal.obj (mergeFields afs bfs)) k
        = (lookupField (mergeFields afs bfs) k).getD JSVal.undefined from rfl,
      mergeFields_lookup afs bfs k hwb.1, hlb,
      show (some (mergeStep ((lookupField afs k).getD JSVal.undefined)
        (JSVal.obj bvfs))).getD JSVal.undefined
        = mergeStep ((lookupField afs k).getD JSVal.undefined)
            (JSVal.obj bvfs) from rfl]
    rw [← hgetA, mergeStep_falsy _ _ hfalsy]
  refine ⟨?_, ?_, ?_⟩
  · rw [hmain, mergeStep_obj, show truthy JSVal.undefined = false from rfl]
    simp only [Bool.false_eq_true, if_false]
    rfl
  · rw [hmain]
    exact mergeStep_undef_equiv (JSVal.obj bvfs)
      (wfFields_lookup hwb.2 hlb)
  · rw [hmain,
      show merge (JSVal.obj (deleteField afs k)) (JSVal.obj bfs)
        = JSVal.obj (mergeFields (deleteField afs k) bfs) from rfl,
      show getKey (JSVal.obj (mergeFields (deleteField afs k) bfs)) k
        = (lookupField (mergeFields (deleteField afs k) bfs) k).getD
            JSVal.undefined from rfl,
      mergeFields_lookup _ bfs k hwb.1, hlb,
      lookupField_deleteField_self afs k]
    rfl

/-- Witness for C9 at `a = {q: 0}`, `b = {q: {y: 2}}`, key `q`. -/
theorem merge_falsy_discarded_witness :
    (wfV (JSVal.obj [("q", JSVal.obj [("y", JSVal.num 2)])]) = true
      ∧ hasKey (JSVal.obj [("q", JSVal.num 0)]) "q" = true
      ∧ truthy (getKey (JSVal.obj [("q", JSVal.num 0)]) "q") = false
      ∧ getKey (JSVal.obj [("q", JSVal.obj [("y", JSVal.num 2)])]) "q"
          = JSVal.obj [("y", JSVal.num 2)])
    ∧ getKey (merge (JSVal.obj [("q", JSVal.num 0)])
        (JSVal.obj [("q", JSVal.obj [("y", JSVal.num 2)])])) "q"
        = merge (JSVal.obj []) (JSVal.obj [("y", JSVal.num 2)]) :=
  ⟨⟨rfl, rfl, rfl, rfl⟩,
    (merge_falsy_discarded [("q", JSVal.num 0)]
      [("q", JSVal.obj [("y", JSVal.num 2)])] "q" [("y", JSVal.num 2)]
      rfl rfl rfl rfl).1⟩

/-- C6: whenever `set(p, root, v)` returns a structure, reading back along
the segments of `p` from the result yields `v`. -/
theorem set_roundtrip (p : String) (root value r : JSVal)
    (h : set p root value = .ok r) : traverse r (splitPath p) = value := by
  rw [set] at h
  by_cases hp : p = ""
  · rw [if_pos hp] at h
    cases h
  · rw [if_neg hp] at h
    exact setRec_traverse h

/-- Witness for C6 at `set('a.b', {a: {b: 1}}, 42)`. -/
theorem set_roundtrip_witness :
    set "a.b" (JSVal.obj [("a", JSVal.obj [("b", JSVal.num 1)])])
        (JSVal.num 42)
      = .ok (JSVal.obj [("a", JSVal.obj [("b", JSVal.num 42)])])
    ∧ traverse (JSVal.obj [("a", JSVal.obj [("b", JSVal.num 42)])])
        (splitPath "a.b") = JSVal.num 42 :=
  ⟨rfl, set_roundtrip "a.b"
    (JSVal.obj [("a", JSVal.obj [("b", JSVal.num 1)])]) (JSVal.num 42)
    (JSVal.obj [("a", JSVal.obj [("b", JSVal.num 42)])]) rfl⟩

/-- C2: at any depth, a missing key named by the final path segment of a
path whose traversal values up to and including the (container-typed) parent
all exist is simply created — the base case never inspects containership of
the child — while a missing key named by a non-final segment leaves
`undefined` to traverse at the next level and `set` fails with
`invalidIntermediate`: multi-level creation into wholly missing nested paths
never succeeds. -/
theorem set_missing_key_boundary (root value : JSVal) :
    (∀ p ks k, p ≠ "" → splitPath p = ks ++ [k] →
      (∀ i, i ≤ ks.length →
        isContainer (traverse root (ks.take i)) = true) →
      hasKey (traverse root ks) k = false →
      ∃ r, set p root value = .ok r ∧ getKey (traverse r ks) k = value)
    ∧ (∀ p pre k k2 post, splitPath p = pre ++ k :: k2 :: post →
        hasKey (traverse root pre) k = false →
        set p root value = .error .invalidIntermediate) := by
  constructor
  · intro p ks k hp hsplit hcont _habs
    have hnb : reachesBad root (ks ++ [k]) = false :=
      reachesBad_false_of_prefix_containers ks k root hcont
    obtain ⟨r, hok⟩ := (setRec_ok_iff root (splitPath p) value).2
      (by rw [hsplit]; exact hnb)
    refine ⟨r, ?_, ?_⟩
    · rw [set, if_neg hp]
      exact hok
    · have ht := setRec_traverse hok
      rw [hsplit, traverse_append] at ht
      exact ht
  · intro p pre k k2 post hsplit habs
    have hp : p ≠ "" := by
      intro hh
      subst hh
      rw [show splitPath "" = [""] from rfl] at hsplit
      have hlen := congrArg List.length hsplit
      simp only [List.length_cons, List.length_append,
        List.length_nil] at hlen
      omega
    rw [set, if_neg hp, setRec_error_iff, reachesBad_iff_exists]
    by_cases hc : isContainer (traverse root pre) = true
    · refine ⟨pre ++ [k], k2, post, ?_, ?_⟩
      · rw [hsplit]
        simp
      · rw [traverse_append,
          show traverse (traverse root pre) [k]
            = getKey (traverse root pre) k from rfl,
          getKey_eq_undef_of_not_hasKey _ _ habs]
        rfl
    · exact ⟨pre, k, k2 :: post, hsplit, by simpa using hc⟩

/-- Witness for C2 at depth 1: `set('a.b', {a: {}}, 2)` creates the missing
final key `b` inside the existing container `r.a`, while
`set('a.b.c', {a: {}}, 2)` fails on the same key `b` once it is non-final. -/
theorem set_missing_key_boundary_witness :
    (splitPath "a.b" = ["a"] ++ ["b"]
      ∧ hasKey (traverse (JSVal.obj [("a", JSVal.obj [])]) ["a"]) "b" = false
      ∧ splitPath "a.b.c" = ["a"] ++ "b" :: "c" :: [])
    ∧ (∃ r, set "a.b" (JSVal.obj [("a", JSVal.obj [])]) (JSVal.num 2) = .ok r
        ∧ getKey (traverse r ["a"]) "b" = JSVal.num 2)
    ∧ set "a.b.c" (JSVal.obj [("a", JSVal.obj [])]) (JSVal.num 2)
        = .error .invalidIntermediate :=
  ⟨⟨rfl, rfl, rfl⟩,
    (set_missing_key_boundary (JSVal.obj [("a", JSVal.obj [])])
      (JSVal.num 2)).1 "a.b" ["a"] "b" (by decide) rfl (by decide) rfl,
    (set_missing_key_boundary (JSVal.obj [("a", JSVal.obj [])])
      (JSVal.num 2)).2 "a.b.c" ["a"] "b" "c" [] rfl rfl⟩

/-- C3: `set` fails with `invalidPath` exactly on the empty path string,
fails with `invalidIntermediate` exactly when some value reached by a
non-terminal segment (the root included) is not a container, and returns a
new structure in every other case — its only failure modes. -/
theorem set_failure_modes (p : String) (root value : JSVal) :
    (set p root value = .error .invalidPath ↔ p = "")
    ∧ (set p root value = .error .invalidIntermediate ↔
        (p ≠ "" ∧ ∃ pre k post, splitPath p = pre ++ k :: post ∧
          isContainer (traverse root pre) = false))
    ∧ (p ≠ "" →
        (¬∃ pre k post, splitPath p = pre ++ k :: post ∧
          isContainer (traverse root pre) = false) →
        ∃ r, set p root value = .ok r) := by
  by_cases hp : p = ""
  · subst hp
    rw [set, if_pos rfl]
    refine ⟨by simp, by simp, fun h => absurd rfl h⟩
  · rw [set, if_neg hp]
    refine ⟨?_, ?_, ?_⟩
    · simp only [hp, iff_false]
      exact setRec_ne_invalidPath root (splitPath p) value
    · rw [setRec_error_iff, reachesBad_iff_exists]
      simp [hp]
    · intro _ hnb
      rw [setRec_ok_iff]
      cases hrb : reachesBad root (splitPath p) with
      | false => rfl
      | true =>
          rw [reachesBad_iff_exists] at hrb
          exact absurd hrb hnb

/-- Witness for C3: `set('a.b', {a: 1}, 5)` fails with
`invalidIntermediate` because the value reached by the non-terminal
segment `a` is the primitive `1`. -/
theorem set_failure_modes_witness :
    ("a.b" ≠ "" ∧ splitPath "a.b" = ["a"] ++ "b" :: []
      ∧ isContainer (traverse (JSVal.obj [("a", JSVal.num 1)]) ["a"]) = false)
    ∧ set "a.b" (JSVal.obj [("a", JSVal.num 1)]) (JSVal.num 5)
        = .error .invalidIntermediate :=
  ⟨⟨by decide, rfl, rfl⟩,
    (set_failure_modes "a.b" (JSVal.obj [("a", JSVal.num 1)])
      (JSVal.num 5)).2.1.mpr
      ⟨by decide, ["a"], "b", [], rfl, rfl⟩⟩

/-- C8: degenerate dots produce empty-string segments that are used as
literal keys — `set` rejects only the wholly empty path, and
`set('a.', r, v)` succeeds when `r.a` is a container, installing `v` at
key `''` inside the copy of `r.a`. -/
theorem set_empty_segments (root value : JSVal) :
    (∀ p, p ≠ "" → set p root value ≠ .error .invalidPath)
    ∧ (isContainer root = true → isContainer (getKey root "a") = true →
        ∃ r, set "a." root value = .ok r
          ∧ getKey (getKey r "a") "" = value) := by
  constructor
  · intro p hp
    rw [set, if_neg hp]
    exact setRec_ne_invalidPath root (splitPath p) value
  · intro hc hca
    refine ⟨setKey (copyContainer root) "a"
      (setKey (copyContainer (getKey root "a")) "" value), ?_, ?_⟩
    · rw [set, if_neg (by decide), show splitPath "a." = ["a", ""] from rfl]
      simp only [setRec, if_pos hc, if_pos hca]
    · rw [getKey_setKey _ _ _ (by rw [isContainer_copyContainer]; exact hc),
        getKey_setKey _ _ _ (by rw [isContainer_copyContainer]; exact hca)]

/-- Witness for C8 at `set('a.', {a: {x: 1}}, 7)`. -/
theorem set_empty_segments_witness :
    (isContainer (JSVal.obj [("a", JSVal.obj [("x", JSVal.num 1)])]) = true
      ∧ isContainer
          (getKey (JSVal.obj [("a", JSVal.obj [("x", JSVal.num 1)])]) "a")
          = true)
    ∧ ∃ r, set "a." (JSVal.obj [("a", JSVal.obj [("x", JSVal.num 1)])])
          (JSVal.num 7) = .ok r
        ∧ getKey (getKey r "a") "" = JSVal.num 7 :=
  ⟨⟨rfl, rfl⟩,
    (set_empty_segments (JSVal.obj [("a", JSVal.obj [("x", JSVal.num 1)])])
      (JSVal.num 7)).2 rfl rfl⟩

/-! ## No-mutation lemmas for the heap model -/

theorem extBelow_refl (n : Nat) (σ : Store) : ExtBelow n σ σ :=
  ⟨le_rfl, fun _ _ => rfl⟩

theorem extBelow_trans {n : Nat} {σ1 σ2 σ3 : Store} (h1 : ExtBelow n σ1 σ2)
    (h2 : ExtBelow n σ2 σ3) : ExtBelow n σ1 σ3 :=
  ⟨le_trans h1.1 h2.1, fun i hi => (h2.2 i hi).trans (h1.2 i hi)⟩

theorem extBelow_mono {n m : Nat} {σ σ' : Store} (h : ExtBelow m σ σ')
    (hnm : n ≤ m) : ExtBelow n σ σ' :=
  ⟨h.1, fun i hi => h.2 i (lt_of_lt_of_le hi hnm)⟩

theorem extBelow_append (n : Nat) (σ : Store) (c : Cell)
    (h : n ≤ σ.length) : ExtBelow n σ (σ ++ [c]) := by
  refine ⟨by simp, fun i hi => ?_⟩
  rw [List.getElem?_append_left (by omega)]

theorem extBelow_set {n : Nat} {σ σ' : Store} (a : Nat) (c : Cell)
    (h : ExtBelow n σ σ') (ha : n ≤ a) : ExtBelow n σ (σ'.set a c) := by
  refine ⟨by simpa using h.1, fun i hi => ?_⟩
  rw [List.getElem?_set_ne (by omega)]
  exact h.2 i hi

theorem extBelow_objSetH {n : Nat} {σ σ' : Store} (a : Nat) (k : String)
    (v : HVal) (h : ExtBelow n σ σ') (ha : n ≤ a) :
    ExtBelow n σ (objSetH σ' a k v) := by
  rw [objSetH]
  cases hc : σ'[a]? with
  | none => exact h
  | some c =>
      cases c with
      | objC fs => exact extBelow_set a _ h ha
      | arrC es ps => exact h

theorem length_objSetH (σ : Store) (a : Nat) (k : String) (v : HVal) :
    (objSetH σ a k v).length = σ.length := by
  rw [objSetH]
  cases hc : σ[a]? with
  | none => rfl
  | some c => cases c <;> simp

/-- The recursor of `set` leaves every pre-existing cell untouched — in the
success case and in the error case alike. -/
theorem setRecH_extBelow (keys : List String) :
    ∀ (σ : Store) (current value : HVal),
      ExtBelow σ.length σ (setRecH σ current keys value).1 := by
  induction keys with
  | nil => intro σ current value; exact extBelow_refl _ _
  | cons k rest ih =>
      intro σ current value
      cases current with
      | ref a =>
          simp only [setRecH]
          split
          · rename_i cell hc
            have h2 := ih (σ ++ [cellCopy cell]) (cellGet cell k) value
            have h12 : ExtBelow σ.length σ
                (setRecH (σ ++ [cellCopy cell]) (cellGet cell k) rest value).1 :=
              extBelow_trans (extBelow_append _ _ _ le_rfl)
                (extBelow_mono h2 (by simp))
            split
            · rename_i σ2 newChild hr
              rw [hr] at h12
              split
              · rename_i c hg
                exact extBelow_set _ _ h12 le_rfl
              · exact h12
            · rename_i σ2 e hr
              rw [hr] at h12
              exact h12
          · exact extBelow_refl _ _
      | null => exact extBelow_refl _ _
      | undefined => exact extBelow_refl _ _
      | bool b => exact extBelow_refl _ _
      | num n => exact extBelow_refl _ _
      | str s => exact extBelow_refl _ _
      | fn id => exact extBelow_refl _ _

/-- The key loop of `merge` touches only the freshly allocated result cell
and cells allocated by its recursive calls. -/
theorem mergeLoopHF_extBelow (fuel : Nat)
    (hA : ∀ (σ : Store) (a b : HVal),
      ExtBelow σ.length σ (mergeHF fuel σ a b).1) :
    ∀ (l : List (String × HVal)) (σ : Store) (r n : Nat), n ≤ r →
      n ≤ σ.length → ExtBelow n σ (mergeLoopHF fuel σ r l).1 := by
  intro l
  induction l with
  | nil =>
      intro σ r n _ _
      simp only [mergeLoopHF]
      exact extBelow_refl _ _
  | cons kv rest ih =>
      obtain ⟨k, bv⟩ := kv
      intro σ r n hr hσ
      by_cases ho : isObjRefH σ bv = true
      · simp only [mergeLoopHF, if_pos ho]
        by_cases ht : truthyH (objGetH σ r k) = true
        · rw [if_pos ht]
          have hm := hA σ (objGetH σ r k) bv
          cases hmr : mergeHF fuel σ (objGetH σ r k) bv with
          | mk σm res =>
              rw [hmr] at hm
              have hmn : ExtBelow n σ σm := extBelow_mono hm hσ
              cases res with
              | some mv =>
                  have hset : ExtBelow n σ (objSetH σm r k mv) :=
                    extBelow_objSetH r k mv hmn hr
                  have hlen : n ≤ (objSetH σm r k mv).length := by
                    rw [length_objSetH]
                    exact le_trans hσ hm.1
                  exact extBelow_trans hset (ih _ r n hr hlen)
              | none => exact hmn
        · rw [if_neg ht]
          have h1 : ExtBelow n σ (σ ++ [Cell.objC []]) :=
            extBelow_append n σ _ hσ
          have hm := hA (σ ++ [Cell.objC []]) (HVal.ref σ.length) bv
          cases hmr : mergeHF fuel (σ ++ [Cell.objC []]) (HVal.ref σ.length) bv with
          | mk σm res =>
              rw [hmr] at hm
              have hmn : ExtBelow n σ σm :=
                extBelow_trans h1 (extBelow_mono hm (by simp; omega))
              cases res with
              | some mv =>
                  have hset : ExtBelow n σ (objSetH σm r k mv) :=
                    extBelow_objSetH r k mv hmn hr
                  have hlen : n ≤ (objSetH σm r k mv).length := by
                    rw [length_objSetH]
                    have := hm.1
                    simp at this
                    omega
                  exact extBelow_trans hset (ih _ r n hr hlen)
              | none => exact hmn
      · simp only [mergeLoopHF, if_neg ho]
        have hset : ExtBelow n σ (objSetH σ r k bv) :=
          extBelow_objSetH r k bv (extBelow_refl n σ) hr
        have hlen : n ≤ (objSetH σ r k bv).length := by
          rw [length_objSetH]; exact hσ
        exact extBelow_trans hset (ih _ r n hr hlen)

/-- `merge` leaves every pre-existing cell untouched, for every fuel. -/
theorem mergeHF_extBelow (fuel : Nat) :
    ∀ (σ : Store) (a b : HVal),
      ExtBelow σ.length σ (mergeHF fuel σ a b).1 := by
  induction fuel with
  | zero =>
      intro σ a b
      simp only [mergeHF]
      exact extBelow_refl _ _
  | succ fuel ih =>
      intro σ a b
      simp only [mergeHF]
      have hloop := mergeLoopHF_extBelow fuel ih (spreadH σ b)
        (σ ++ [Cell.objC (spreadH σ a)]) σ.length σ.length le_rfl (by simp)
      exact extBelow_trans (extBelow_append σ.length σ _ le_rfl) hloop

/-- In a closed store, the fuel-bounded snapshot of any pre-existing value
only reads pre-existing cells, so `ExtBelow`-evolution preserves it. -/
theorem denote_extBelow {σ σ' : Store} (hok : storeOk σ = true)
    (hext : ExtBelow σ.length σ σ') :
    ∀ (n : Nat) (x : HVal), valBelow σ.length x = true →
      denote n σ' x = denote n σ x := by
  intro n
  induction n with
  | zero => intro x _; cases x <;> rfl
  | succ n ih =>
      intro x hx
      cases x with
      | ref a =>
          have ha : a < σ.length := by simpa [valBelow] using hx
          simp only [denote]
          rw [hext.2 a ha]
          cases hc : σ[a]? with
          | none => rfl
          | some cell =>
              have hcm : cell ∈ σ := List.getElem?_mem hc
              have hcb : cellBelow σ.length cell = true := by
                rw [storeOk, List.all_eq_true] at hok
                exact hok cell hcm
              cases cell with
              | objC fs =>
                  simp only []
                  congr 1
                  refine List.map_congr_left ?_
                  intro p hp
                  have hv : valBelow σ.length p.2 = true := by
                    rw [show cellBelow σ.length (Cell.objC fs)
                        = fs.all (fun p => valBelow σ.length p.2) from rfl,
                      List.all_eq_true] at hcb
                    exact hcb p hp
                  rw [ih p.2 hv]
              | arrC es ps =>
                  rw [show cellBelow σ.length (Cell.arrC es ps)
                      = (es.all (valBelow σ.length)
                        && ps.all (fun p => valBelow σ.length p.2)) from rfl,
                    Bool.and_eq_true, List.all_eq_true, List.all_eq_true] at hcb
                  simp only []
                  congr 1
                  · exact List.map_congr_left fun v hv => ih v (hcb.1 v hv)
                  · refine List.map_congr_left ?_
                    intro p hp
                    rw [ih p.2 (hcb.2 p hp)]
      | null => rfl
      | undefined => rfl
      | bool b => rfl
      | num m => rfl
      | str s => rfl
      | fn id => rfl

/-- C4: `set` and `merge` never mutate their container arguments at any
depth — every deep snapshot (`denote`) of any pre-existing value, the inputs
included, still holds after the call returns, and for `set` also after it
throws (the store is returned in the error cases too). -/
theorem set_merge_no_mutation (σ : Store) (hok : storeOk σ = true) :
    (∀ (path : String) (root value : HVal) (n : Nat) (x : HVal),
      valBelow σ.length x = true →
      denote n (setH σ path root value).1 x = denote n σ x)
    ∧ (∀ (fuel : Nat) (a b : HVal) (n : Nat) (x : HVal),
      valBelow σ.length x = true →
      denote n (mergeHF fuel σ a b).1 x = denote n σ x) := by
  constructor
  · intro path root value n x hx
    have hext : ExtBelow σ.length σ (setH σ path root value).1 := by
      rw [setH]
      by_cases hp : path = ""
      · rw [if_pos hp]
        exact extBelow_refl _ _
      · rw [if_neg hp]
        exact setRecH_extBelow (splitPath path) σ root value
    exact denote_extBelow hok hext n x hx
  · intro fuel a b n x hx
    exact denote_extBelow hok (mergeHF_extBelow fuel σ a b) n x hx

/-- Witness for C4 on the store `[{a: 1}]`: the denotation of the input
object (cell 0) is unchanged by `set('a', #0, 5)` and by `merge(#0, #0)`. -/
theorem set_merge_no_mutation_witness :
    storeOk [Cell.objC [("a", HVal.num 1)]] = true
    ∧ denote 2 (setH [Cell.objC [("a", HVal.num 1)]] "a" (HVal.ref 0)
          (HVal.num 5)).1 (HVal.ref 0)
        = denote 2 [Cell.objC [("a", HVal.num 1)]] (HVal.ref 0)
    ∧ denote 2 (mergeHF 3 [Cell.objC [("a", HVal.num 1)]] (HVal.ref 0)
          (HVal.ref 0)).1 (HVal.ref 0)
        = denote 2 [Cell.objC [("a", HVal.num 1)]] (HVal.ref 0) :=
  ⟨by decide,
    (set_merge_no_mutation [Cell.objC [("a", HVal.num 1)]] (by decide)).1
      "a" (HVal.ref 0) (HVal.num 5) 2 (HVal.ref 0) (by decide),
    (set_merge_no_mutation [Cell.objC [("a", HVal.num 1)]] (by decide)).2
      3 (HVal.ref 0) (HVal.ref 0) 2 (HVal.ref 0) (by decide)⟩

end Functional
